import Mathlib

/-!
Verification of `Classification/include/CGAL/Classification/Point_set_neighborhood.h`.

The header is embedded shallowly: the kernel scalar type `FT` is modelled by `ℚ`
(an exact field, as permitted by the CGAL kernel concept), points by `Point3`,
the caller's input range plus point map by an accessor function `pm : Nat → Point3`
over the index range `[0, n)`.  The `std::map<Point, std::vector<std::size_t>>`
used by `voxelize_point_set` is modelled by an association list kept sorted by the
lexicographic order on points (the order of `CGAL::Point_3::operator<`).

The kd-tree machinery (`CGAL::Kd_tree`, `Orthogonal_k_neighbor_search`,
`Fuzzy_sphere`) is not part of this repository's sources; its observable
behaviour is modelled from the spec (see `knnSearch` and `rangeSearch` below).
Distances are compared through squared distances, which is equivalent to
comparing Euclidean distances since both sides are non-negative.
-/

/-- A 3D point over the kernel scalar type, modelled exactly by `ℚ`. -/
structure Point3 where
  x : ℚ
  y : ℚ
  z : ℚ
  deriving DecidableEq

/-- `CGAL::squared_distance` for two 3D points. -/
def squared_distance (p q : Point3) : ℚ :=
  (p.x - q.x) * (p.x - q.x) + (p.y - q.y) * (p.y - q.y) + (p.z - q.z) * (p.z - q.z)

/-- The lexicographic comparison on points: this is the strict order used by
`std::map<Point, ...>` via `CGAL::Point_3::operator<` (compare x, then y, then z). -/
def ptLt (p q : Point3) : Prop :=
  p.x < q.x ∨ (p.x = q.x ∧ (p.y < q.y ∨ (p.y = q.y ∧ p.z < q.z)))

instance (p q : Point3) : Decidable (ptLt p q) := by
  unfold ptLt; exact inferInstance

/-- The voxel key of a point: `Point ref(floor(x/s), floor(y/s), floor(z/s))`
from `voxelize_point_set`; the floor is toward minus infinity. -/
def voxel_ref (voxel_size : ℚ) (p : Point3) : Point3 :=
  ⟨(⌊p.x / voxel_size⌋ : ℤ), (⌊p.y / voxel_size⌋ : ℤ), (⌊p.z / voxel_size⌋ : ℤ)⟩

/-- One step of `grid.insert(make_pair(ref, vector())); it->second.push_back(i)`:
insert index `i` into the group of key `key`, keeping the association list sorted
by `ptLt` as `std::map` does, appending `i` at the end of an existing group. -/
def gridInsert (key : Point3) (i : Nat) :
    List (Point3 × List Nat) → List (Point3 × List Nat)
  | [] => [(key, [i])]
  | (k, g) :: rest =>
    if ptLt key k then (key, [i]) :: (k, g) :: rest
    else if key = k then (k, g ++ [i]) :: rest
    else (k, g) :: gridInsert key i rest

/-- The first loop of `voxelize_point_set`: group the indices by voxel key. -/
def buildGrid (pm : Nat → Point3) (voxel_size : ℚ) (indices : List Nat) :
    List (Point3 × List Nat) :=
  indices.foldl (fun g i => gridInsert (voxel_ref voxel_size (pm i)) i g) []

/-- `CGAL::centroid` of the points of a group: the arithmetic mean coordinate-wise. -/
def centroid (pm : Nat → Point3) (pts : List Nat) : Point3 :=
  ⟨((pts.map fun i => (pm i).x).sum) / (pts.length : ℚ),
   ((pts.map fun i => (pm i).y).sum) / (pts.length : ℚ),
   ((pts.map fun i => (pm i).z).sum) / (pts.length : ℚ)⟩

/-- The selection loop of `voxelize_point_set`:
`chosen` starts at `0`, `min_dist` starts at `DBL_MAX` (modelled as `none`,
which every finite distance beats), and an index replaces `chosen` exactly
when its squared distance to the centroid is strictly below `min_dist`. -/
def chooseRepAux (pm : Nat → Point3) (c : Point3) :
    List Nat → Nat → Option ℚ → Nat
  | [], chosen, _ => chosen
  | i :: rest, chosen, min_dist =>
    match min_dist with
    | none => chooseRepAux pm c rest i (some (squared_distance (pm i) c))
    | some m =>
      if squared_distance (pm i) c < m then
        chooseRepAux pm c rest i (some (squared_distance (pm i) c))
      else
        chooseRepAux pm c rest chosen (some m)

/-- The representative chosen for a group, as computed by the selection loop. -/
def chooseRep (pm : Nat → Point3) (c : Point3) (pts : List Nat) : Nat :=
  chooseRepAux pm c pts 0 none

/-- `Point_set_neighborhood::voxelize_point_set`: group the indices by voxel key,
then for each occupied cell emit the index chosen by the selection loop (the one
closest to the cell's centroid), in the iteration order of the grid map. -/
def voxelize_point_set (pm : Nat → Point3) (voxel_size : ℚ) (indices : List Nat) :
    List Nat :=
  (buildGrid pm voxel_size indices).map
    (fun kg => chooseRep pm (centroid pm kg.2) kg.2)

/-- The neighborhood object: `m_tree` models the kd-tree pointer (`none` is the
null pointer of the default constructor; `some I` is a built tree over the index
set `I`), and `pm` models the stored point property map. -/
structure Point_set_neighborhood where
  pm : Nat → Point3
  m_tree : Option (List Nat)

namespace Point_set_neighborhood

/-- The default constructor: `m_tree(NULL)`, nothing is built. -/
def mk_default (pm : Nat → Point3) : Point_set_neighborhood :=
  ⟨pm, none⟩

/-- The constructor `Point_set_neighborhood(input, point_map)`: builds the tree
over the full index range `0, ..., input.size() - 1`. -/
def build (pm : Nat → Point3) (n : Nat) : Point_set_neighborhood :=
  ⟨pm, some (List.range n)⟩

/-- The constructor `Point_set_neighborhood(input, point_map, voxel_size)`:
fills `indices` with `0, ..., input.size() - 1`, simplifies it with
`voxelize_point_set`, and builds the tree over the result. -/
def build_simplified (pm : Nat → Point3) (n : Nat) (voxel_size : ℚ) :
    Point_set_neighborhood :=
  ⟨pm, some (voxelize_point_set pm voxel_size (List.range n))⟩

/-- The index set the tree was built over (empty when the tree is null). -/
def indexSet (nb : Point_set_neighborhood) : List Nat :=
  nb.m_tree.getD []

end Point_set_neighborhood

/-- The error kinds the spec assigns to the simplified build. -/
inductive BuildError where
  | invalidVoxelSize
  | coordinateOverflow
  deriving DecidableEq

/-- The simplified constructor with an explicit error channel, so that the
spec's build-failure claims can be stated.  The C++ constructor validates
nothing and has no failure path, so this always returns `ok`. -/
def Point_set_neighborhood.build_simplifiedE (pm : Nat → Point3) (n : Nat)
    (voxel_size : ℚ) : Except BuildError Point_set_neighborhood :=
  Except.ok (Point_set_neighborhood.build_simplified pm n voxel_size)

/-- Modelled from the spec: the comparison used by the k-NN search of
`CGAL::Orthogonal_k_neighbor_search` (not under the sources here) — nearer
points first, ties between equidistant points broken by ascending index. -/
def nnLe (pm : Nat → Point3) (q : Point3) (i j : Nat) : Bool :=
  decide (squared_distance (pm i) q < squared_distance (pm j) q
    ∨ (squared_distance (pm i) q = squared_distance (pm j) q ∧ i ≤ j))

/-- Modelled from the spec: the k-NN search of `CGAL::Kd_tree` with
`CGAL::Orthogonal_k_neighbor_search` (not under the sources here).  Per the
spec it emits the `k` indices nearest to `q` in non-decreasing distance order,
ties broken by ascending index: the first `k` entries of the index set sorted
by `nnLe`. -/
def knnSearch (pm : Nat → Point3) (I : List Nat) (q : Point3) (k : Nat) :
    List Nat :=
  (I.mergeSort (nnLe pm q)).take k

/-- Modelled from the spec: `CGAL::Kd_tree::search` with a
`CGAL::Fuzzy_sphere(q, r, 0)` (not under the sources here).  Per the spec, at
epsilon `0` it emits exactly the indices within distance `r` of `q`
(squared distance at most `r * r`). -/
def rangeSearch (pm : Nat → Point3) (I : List Nat) (q : Point3) (r : ℚ) :
    List Nat :=
  I.filter (fun i => squared_distance (pm i) q ≤ r * r)

/-- `Point_set_neighborhood::range_neighbors`: a fuzzy-sphere search with
radius `radius` and epsilon `0`. -/
def Point_set_neighborhood.range_neighbors (nb : Point_set_neighborhood)
    (query : Point3) (radius : ℚ) : List Nat :=
  rangeSearch nb.pm nb.indexSet query radius

/-- `Point_set_neighborhood::k_neighbors`: the requested count `k` of type
`std::size_t` is narrowed by the cast `(unsigned int)k` before the search, i.e.
reduced modulo `2 ^ 32` on an LP64 platform. -/
def Point_set_neighborhood.k_neighbors (nb : Point_set_neighborhood)
    (query : Point3) (k : Nat) : List Nat :=
  knnSearch nb.pm nb.indexSet query (k % 4294967296)

/-- The `K_neighbor_query` facade: a back reference to the neighborhood and the
fixed count `k`. -/
structure K_neighbor_query where
  neighborhood : Point_set_neighborhood
  k : Nat

/-- `K_neighbor_query::operator()`: forwards to `k_neighbors`. -/
def K_neighbor_query.apply (f : K_neighbor_query) (query : Point3) : List Nat :=
  f.neighborhood.k_neighbors query f.k

/-- The `Range_neighbor_query` facade: a back reference to the neighborhood and
the fixed radius. -/
structure Range_neighbor_query where
  neighborhood : Point_set_neighborhood
  radius : ℚ

/-- `Range_neighbor_query::operator()`: forwards to `range_neighbors`. -/
def Range_neighbor_query.apply (f : Range_neighbor_query) (query : Point3) :
    List Nat :=
  f.neighborhood.range_neighbors query f.radius

/-- `Point_set_neighborhood::k_neighbor_query`. -/
def Point_set_neighborhood.k_neighbor_query (nb : Point_set_neighborhood)
    (k : Nat) : K_neighbor_query :=
  ⟨nb, k⟩

/-- `Point_set_neighborhood::range_neighbor_query`. -/
def Point_set_neighborhood.range_neighbor_query (nb : Point_set_neighborhood)
    (radius : ℚ) : Range_neighbor_query :=
  ⟨nb, radius⟩

/-- A neighborhood produced by one of the two public constructors. -/
def IsBuilt (nb : Point_set_neighborhood) : Prop :=
  (∃ pm n, nb = Point_set_neighborhood.build pm n) ∨
  (∃ pm n s, nb = Point_set_neighborhood.build_simplified pm n s)

/-! ### Order facts about the lexicographic point comparison -/

theorem ptLt_irrefl (p : Point3) : ¬ ptLt p p := by
  unfold ptLt
  simp

theorem ptLt_trans {p q r : Point3} (h1 : ptLt p q) (h2 : ptLt q r) : ptLt p r := by
  unfold ptLt at h1 h2 ⊢
  rcases h1 with h1 | ⟨e1, h1⟩ <;> rcases h2 with h2 | ⟨e2, h2⟩
  · exact Or.inl (h1.trans h2)
  · exact Or.inl (lt_of_lt_of_eq h1 e2)
  · exact Or.inl (lt_of_eq_of_lt e1 h2)
  · refine Or.inr ⟨e1.trans e2, ?_⟩
    rcases h1 with h1 | ⟨f1, h1⟩ <;> rcases h2 with h2 | ⟨f2, h2⟩
    · exact Or.inl (h1.trans h2)
    · exact Or.inl (lt_of_lt_of_eq h1 f2)
    · exact Or.inl (lt_of_eq_of_lt f1 h2)
    · exact Or.inr ⟨f1.trans f2, h1.trans h2⟩

theorem ptLt_trichot (p q : Point3) : ptLt p q ∨ p = q ∨ ptLt q p := by
  obtain ⟨px, py, pz⟩ := p
  obtain ⟨qx, qy, qz⟩ := q
  unfold ptLt
  simp only [Point3.mk.injEq]
  rcases lt_trichotomy px qx with h | h | h
  · exact Or.inl (Or.inl h)
  · rcases lt_trichotomy py qy with h2 | h2 | h2
    · exact Or.inl (Or.inr ⟨h, Or.inl h2⟩)
    · rcases lt_trichotomy pz qz with h3 | h3 | h3
      · exact Or.inl (Or.inr ⟨h, Or.inr ⟨h2, h3⟩⟩)
      · exact Or.inr (Or.inl ⟨h, h2, h3⟩)
      · exact Or.inr (Or.inr (Or.inr ⟨h.symm, Or.inr ⟨h2.symm, h3⟩⟩))
    · exact Or.inr (Or.inr (Or.inr ⟨h.symm, Or.inl h2⟩))
  · exact Or.inr (Or.inr (Or.inl h))

theorem ptLt_ne {p q : Point3} (h : ptLt p q) : p ≠ q := by
  intro e
  exact ptLt_irrefl q (e ▸ h)

/-! ### Invariants of the voxel grid map -/

/-- The grid association list is strictly sorted on its keys, as a `std::map` is. -/
def gridSorted (g : List (Point3 × List Nat)) : Prop :=
  g.Pairwise (fun a b => ptLt a.1 b.1)

/-- Well-formedness of the grid: every group is non-empty and contains only
indices whose voxel key is the group's key. -/
def gridWF (pm : Nat → Point3) (s : ℚ) (g : List (Point3 × List Nat)) : Prop :=
  ∀ kg ∈ g, kg.2 ≠ [] ∧ ∀ i ∈ kg.2, voxel_ref s (pm i) = kg.1

theorem mem_keys_gridInsert {key : Point3} {i : Nat} {p : Point3} :
    ∀ {g : List (Point3 × List Nat)},
      p ∈ (gridInsert key i g).map Prod.fst → p = key ∨ p ∈ g.map Prod.fst
  | [], h => by simpa [gridInsert] using h
  | (k, gr) :: rest, h => by
    rw [gridInsert] at h
    by_cases h1 : ptLt key k
    · rw [if_pos h1] at h
      simp only [List.map_cons, List.mem_cons] at h ⊢
      tauto
    · rw [if_neg h1] at h
      by_cases h2 : key = k
      · rw [if_pos h2] at h
        simp only [List.map_cons, List.mem_cons] at h ⊢
        tauto
      · rw [if_neg h2] at h
        simp only [List.map_cons, List.mem_cons] at h ⊢
        rcases h with h | h
        · tauto
        · rcases mem_keys_gridInsert h with h | h <;> tauto

theorem gridSorted_gridInsert {key : Point3} {i : Nat} :
    ∀ {g : List (Point3 × List Nat)}, gridSorted g → gridSorted (gridInsert key i g)
  | [], _ => by simp [gridSorted, gridInsert]
  | (k, gr) :: rest, h => by
    rcases List.pairwise_cons.mp h with ⟨hk, hrest⟩
    rw [gridSorted, gridInsert]
    by_cases h1 : ptLt key k
    · rw [if_pos h1]
      refine List.pairwise_cons.mpr ⟨?_, h⟩
      intro b hb
      rcases List.mem_cons.mp hb with rfl | hb
      · exact h1
      · exact ptLt_trans h1 (hk b hb)
    · rw [if_neg h1]
      by_cases h2 : key = k
      · rw [if_pos h2]
        exact List.pairwise_cons.mpr ⟨hk, hrest⟩
      · rw [if_neg h2]
        have h3 : ptLt k key := by
          rcases ptLt_trichot key k with h4 | h4 | h4
          · exact absurd h4 h1
          · exact absurd h4 h2
          · exact h4
        refine List.pairwise_cons.mpr ⟨?_, gridSorted_gridInsert hrest⟩
        intro b hb
        have hb2 : b.1 = key ∨ b.1 ∈ rest.map Prod.fst :=
          mem_keys_gridInsert (List.mem_map.mpr ⟨b, hb, rfl⟩)
        rcases hb2 with hbk | hbr
        · rw [hbk]; exact h3
        · rcases List.mem_map.mp hbr with ⟨a, ha, hae⟩
          rw [← hae]; exact hk a ha

/-- Where a group of `gridInsert key i g` comes from: it is an untouched group
of `g`, the fresh singleton group of `key`, or the group of `key` in `g` with
`i` appended. -/
theorem gridInsert_group_cases {key : Point3} {i : Nat} :
    ∀ {g : List (Point3 × List Nat)} {kg : Point3 × List Nat},
      kg ∈ gridInsert key i g →
      kg ∈ g ∨ kg = (key, [i]) ∨ ∃ gr, (key, gr) ∈ g ∧ kg = (key, gr ++ [i])
  | [], kg, h => by
    simp only [gridInsert, List.mem_singleton] at h
    exact Or.inr (Or.inl h)
  | (k, gr) :: rest, kg, h => by
    rw [gridInsert] at h
    by_cases h1 : ptLt key k
    · rw [if_pos h1] at h
      rcases List.mem_cons.mp h with rfl | h
      · exact Or.inr (Or.inl rfl)
      · exact Or.inl h
    · rw [if_neg h1] at h
      by_cases h2 : key = k
      · rw [if_pos h2] at h
        rcases List.mem_cons.mp h with rfl | h
        · subst h2
          exact Or.inr (Or.inr ⟨gr, List.mem_cons_self _ _, rfl⟩)
        · exact Or.inl (List.mem_cons_of_mem _ h)
      · rw [if_neg h2] at h
        rcases List.mem_cons.mp h with rfl | h
        · exact Or.inl (List.mem_cons_self _ _)
        · rcases gridInsert_group_cases h with h3 | h3 | ⟨gr2, hgr2, he⟩
          · exact Or.inl (List.mem_cons_of_mem _ h3)
          · exact Or.inr (Or.inl h3)
          · exact Or.inr (Or.inr ⟨gr2, List.mem_cons_of_mem _ hgr2, he⟩)

theorem gridWF_gridInsert {pm : Nat → Point3} {s : ℚ} {i : Nat}
    {g : List (Point3 × List Nat)} (h : gridWF pm s g) :
    gridWF pm s (gridInsert (voxel_ref s (pm i)) i g) := by
  intro kg hkg
  rcases gridInsert_group_cases hkg with h1 | h1 | ⟨gr, hgr, rfl⟩
  · exact h kg h1
  · subst h1
    refine ⟨by simp, ?_⟩
    intro j hj
    rcases List.mem_singleton.mp hj with rfl
    rfl
  · refine ⟨by simp, ?_⟩
    intro j hj
    rcases List.mem_append.mp hj with hj | hj
    · exact (h (voxel_ref s (pm i), gr) hgr).2 j hj
    · rcases List.mem_singleton.mp hj with rfl
      rfl

theorem foldl_gridSorted (pm : Nat → Point3) (s : ℚ) :
    ∀ (idxs : List Nat) (g : List (Point3 × List Nat)), gridSorted g →
      gridSorted (idxs.foldl (fun g i => gridInsert (voxel_ref s (pm i)) i g) g)
  | [], _, h => h
  | i :: rest, g, h => by
    rw [List.foldl_cons]
    exact foldl_gridSorted pm s rest _ (gridSorted_gridInsert h)

theorem foldl_gridWF (pm : Nat → Point3) (s : ℚ) :
    ∀ (idxs : List Nat) (g : List (Point3 × List Nat)), gridWF pm s g →
      gridWF pm s (idxs.foldl (fun g i => gridInsert (voxel_ref s (pm i)) i g) g)
  | [], _, h => h
  | i :: rest, g, h => by
    rw [List.foldl_cons]
    exact foldl_gridWF pm s rest _ (gridWF_gridInsert h)

theorem buildGrid_sorted (pm : Nat → Point3) (s : ℚ) (idxs : List Nat) :
    gridSorted (buildGrid pm s idxs) :=
  foldl_gridSorted pm s idxs [] (List.Pairwise.nil)

theorem buildGrid_wf (pm : Nat → Point3) (s : ℚ) (idxs : List Nat) :
    gridWF pm s (buildGrid pm s idxs) :=
  foldl_gridWF pm s idxs [] (by intro kg hkg; cases hkg)

/-- When the indices are fed to the grid in strictly increasing order, every
group of the resulting grid lists its indices in strictly increasing order. -/
theorem foldl_grid_asc (pm : Nat → Point3) (s : ℚ) :
    ∀ (idxs : List Nat) (g : List (Point3 × List Nat)),
      idxs.Pairwise (· < ·) →
      (∀ kg ∈ g, kg.2.Pairwise (· < ·)) →
      (∀ kg ∈ g, ∀ x ∈ kg.2, ∀ j ∈ idxs, x < j) →
      ∀ kg ∈ idxs.foldl (fun g i => gridInsert (voxel_ref s (pm i)) i g) g,
        kg.2.Pairwise (· < ·)
  | [], g, _, hasc, _, kg, hkg => hasc kg hkg
  | i :: rest, g, hpw, hasc, hbel, kg, hkg => by
    rw [List.foldl_cons] at hkg
    rcases List.pairwise_cons.mp hpw with ⟨hi, hrest⟩
    refine foldl_grid_asc pm s rest (gridInsert (voxel_ref s (pm i)) i g)
      hrest ?_ ?_ kg hkg
    · intro kg2 hkg2
      rcases gridInsert_group_cases hkg2 with h | h | ⟨gr, hgr, rfl⟩
      · exact hasc kg2 h
      · rw [h]; exact List.pairwise_singleton _ _
      · refine List.pairwise_append.mpr ⟨hasc _ hgr, List.pairwise_singleton _ _, ?_⟩
        intro a ha b hb
        rcases List.mem_singleton.mp hb with rfl
        exact hbel _ hgr a ha b (List.mem_cons_self _ _)
    · intro kg2 hkg2 x hx j hj
      rcases gridInsert_group_cases hkg2 with h | h | ⟨gr, hgr, rfl⟩
      · exact hbel kg2 h x hx j (List.mem_cons_of_mem i hj)
      · rw [h] at hx
        rcases List.mem_singleton.mp hx with rfl
        exact hi j hj
      · rcases List.mem_append.mp hx with hx | hx
        · exact hbel _ hgr x hx j (List.mem_cons_of_mem i hj)
        · rcases List.mem_singleton.mp hx with rfl
          exact hi j hj

theorem buildGrid_range_asc (pm : Nat → Point3) (s : ℚ) (n : Nat) :
    ∀ kg ∈ buildGrid pm s (List.range n), kg.2.Pairwise (· < ·) :=
  foldl_grid_asc pm s (List.range n) [] (List.pairwise_lt_range n)
    (by intro kg hkg; cases hkg) (by intro kg hkg; cases hkg)

/-! ### The representative-selection loop -/

/-- The loop invariant of the selection loop of `voxelize_point_set`, for the
states it reaches after the first iteration (where `min_dist` is the distance of
the currently chosen index): the final choice either is the incumbent, or is a
later index of strictly smaller distance; and it minimizes the distance over
the incumbent and all remaining indices. -/
theorem chooseRepAux_spec (pm : Nat → Point3) (c : Point3) :
    ∀ (l : List Nat) (ch : Nat),
      (chooseRepAux pm c l ch (some (squared_distance (pm ch) c)) = ch ∨
        (chooseRepAux pm c l ch (some (squared_distance (pm ch) c)) ∈ l ∧
          squared_distance (pm (chooseRepAux pm c l ch (some (squared_distance (pm ch) c)))) c
            < squared_distance (pm ch) c)) ∧
      (∀ j ∈ l,
        squared_distance (pm (chooseRepAux pm c l ch (some (squared_distance (pm ch) c)))) c
          ≤ squared_distance (pm j) c)
  | [], ch => by
    refine ⟨Or.inl rfl, ?_⟩
    intro j hj
    cases hj
  | i :: rest, ch => by
    simp only [chooseRepAux]
    by_cases hlt : squared_distance (pm i) c < squared_distance (pm ch) c
    · rw [if_pos hlt]
      obtain ⟨hm, hmin⟩ := chooseRepAux_spec pm c rest i
      have hr : squared_distance (pm (chooseRepAux pm c rest i (some (squared_distance (pm i) c)))) c
          ≤ squared_distance (pm i) c := by
        rcases hm with he | ⟨_, h2⟩
        · rw [he]
        · exact le_of_lt h2
      constructor
      · right
        rcases hm with he | ⟨hmem, h2⟩
        · rw [he]
          exact ⟨List.mem_cons_self i rest, hlt⟩
        · exact ⟨List.mem_cons_of_mem i hmem, lt_trans h2 hlt⟩
      · intro j hj
        rcases List.mem_cons.mp hj with rfl | hj
        · exact hr
        · exact hmin j hj
    · rw [if_neg hlt]
      obtain ⟨hm, hmin⟩ := chooseRepAux_spec pm c rest ch
      have hr : squared_distance (pm (chooseRepAux pm c rest ch (some (squared_distance (pm ch) c)))) c
          ≤ squared_distance (pm ch) c := by
        rcases hm with he | ⟨_, h2⟩
        · rw [he]
        · exact le_of_lt h2
      constructor
      · rcases hm with he | ⟨hmem, h2⟩
        · exact Or.inl he
        · exact Or.inr ⟨List.mem_cons_of_mem i hmem, h2⟩
      · intro j hj
        rcases List.mem_cons.mp hj with rfl | hj
        · exact le_trans hr (not_lt.mp hlt)
        · exact hmin j hj

/-- Tie-breaking of the selection loop: when the remaining indices all exceed
the incumbent and are themselves increasing, any index whose distance equals the
final choice's distance is at or after the final choice. -/
theorem chooseRepAux_tie (pm : Nat → Point3) (c : Point3) :
    ∀ (l : List Nat) (ch : Nat), (∀ j ∈ l, ch < j) → l.Pairwise (· < ·) →
      ∀ j, (j = ch ∨ j ∈ l) →
        squared_distance (pm j) c
          = squared_distance (pm (chooseRepAux pm c l ch (some (squared_distance (pm ch) c)))) c →
        chooseRepAux pm c l ch (some (squared_distance (pm ch) c)) ≤ j
  | [], ch, _, _, j, hj, _ => by
    rcases hj with rfl | hj
    · exact le_refl _
    · cases hj
  | i :: rest, ch, hch, hpw, j, hj, heq => by
    rcases List.pairwise_cons.mp hpw with ⟨hi, hrest⟩
    simp only [chooseRepAux] at heq ⊢
    by_cases hlt : squared_distance (pm i) c < squared_distance (pm ch) c
    · rw [if_pos hlt] at heq ⊢
      rcases hj with rfl | hj
      · exfalso
        have hr : squared_distance
            (pm (chooseRepAux pm c rest i (some (squared_distance (pm i) c)))) c
            ≤ squared_distance (pm i) c := by
          rcases (chooseRepAux_spec pm c rest i).1 with he | ⟨_, h2⟩
          · rw [he]
          · exact le_of_lt h2
        have h3 := lt_of_le_of_lt hr hlt
        rw [← heq] at h3
        exact lt_irrefl _ h3
      · rcases List.mem_cons.mp hj with he | hj2
        · exact chooseRepAux_tie pm c rest i hi hrest j (Or.inl he) heq
        · exact chooseRepAux_tie pm c rest i hi hrest j (Or.inr hj2) heq
    · rw [if_neg hlt] at heq ⊢
      rcases hj with he | hj
      · exact chooseRepAux_tie pm c rest ch
          (fun a ha => hch a (List.mem_cons_of_mem i ha)) hrest j (Or.inl he) heq
      · rcases List.mem_cons.mp hj with he | hj2
        · rcases (chooseRepAux_spec pm c rest ch).1 with he2 | ⟨_, h2⟩
          · rw [he2]
            exact le_of_lt (hch j hj)
          · exfalso
            have h3 : squared_distance (pm ch) c ≤ squared_distance (pm i) c :=
              not_lt.mp hlt
            have h4 := lt_of_lt_of_le h2 h3
            rw [he] at heq
            rw [heq] at h4
            exact lt_irrefl _ h4
        · exact chooseRepAux_tie pm c rest ch
            (fun a ha => hch a (List.mem_cons_of_mem i ha)) hrest j (Or.inr hj2) heq

/-- The chosen representative belongs to its (non-empty) group. -/
theorem chooseRep_mem (pm : Nat → Point3) (c : Point3) :
    ∀ (G : List Nat), G ≠ [] → chooseRep pm c G ∈ G
  | [], h => absurd rfl h
  | i :: rest, _ => by
    have : chooseRep pm c (i :: rest)
        = chooseRepAux pm c rest i (some (squared_distance (pm i) c)) := rfl
    rw [this]
    rcases (chooseRepAux_spec pm c rest i).1 with he | ⟨hmem, _⟩
    · rw [he]; exact List.mem_cons_self _ _
    · exact List.mem_cons_of_mem i hmem

/-- The representative minimizes the squared distance to `c` over its group,
and any tied index is at or after it; for a strictly increasing group this
makes it the smallest index attaining the minimum. -/
theorem chooseRep_spec (pm : Nat → Point3) (c : Point3) :
    ∀ (G : List Nat), G ≠ [] → G.Pairwise (· < ·) →
      (∀ j ∈ G, squared_distance (pm (chooseRep pm c G)) c ≤ squared_distance (pm j) c) ∧
      (∀ j ∈ G, squared_distance (pm j) c = squared_distance (pm (chooseRep pm c G)) c →
        chooseRep pm c G ≤ j)
  | [], h, _ => absurd rfl h
  | i :: rest, _, hpw => by
    rcases List.pairwise_cons.mp hpw with ⟨hi, hrest⟩
    have hdef : chooseRep pm c (i :: rest)
        = chooseRepAux pm c rest i (some (squared_distance (pm i) c)) := rfl
    rw [hdef]
    obtain ⟨hm, hmin⟩ := chooseRepAux_spec pm c rest i
    constructor
    · intro j hj
      rcases List.mem_cons.mp hj with he | hj2
      · rw [he]
        rcases hm with he2 | ⟨_, h2⟩
        · rw [he2]
        · exact le_of_lt h2
      · exact hmin j hj2
    · intro j hj heq
      rcases List.mem_cons.mp hj with he | hj2
      · exact chooseRepAux_tie pm c rest i hi hrest j (Or.inl he) heq
      · exact chooseRepAux_tie pm c rest i hi hrest j (Or.inr hj2) heq

/-- The representatives emitted by `voxelize_point_set` come from pairwise
distinct voxel cells. -/
theorem voxelize_keys_pairwise (pm : Nat → Point3) (s : ℚ) (idxs : List Nat) :
    (voxelize_point_set pm s idxs).Pairwise
      (fun i j => voxel_ref s (pm i) ≠ voxel_ref s (pm j)) := by
  have hw := buildGrid_wf pm s idxs
  rw [voxelize_point_set, List.pairwise_map]
  refine List.Pairwise.imp_of_mem ?_ (buildGrid_sorted pm s idxs)
  intro a b ha hb hab
  have hka : voxel_ref s (pm (chooseRep pm (centroid pm a.2) a.2)) = a.1 :=
    (hw a ha).2 _ (chooseRep_mem pm _ a.2 (hw a ha).1)
  have hkb : voxel_ref s (pm (chooseRep pm (centroid pm b.2) b.2)) = b.1 :=
    (hw b hb).2 _ (chooseRep_mem pm _ b.2 (hw b hb).1)
  rw [hka, hkb]
  exact ptLt_ne hab

/-- The simplified index set has no duplicates. -/
theorem voxelize_nodup (pm : Nat → Point3) (s : ℚ) (idxs : List Nat) :
    (voxelize_point_set pm s idxs).Nodup := by
  refine List.Pairwise.imp ?_ (voxelize_keys_pairwise pm s idxs)
  intro a b hab he
  exact hab (by rw [he])

/-- Both public constructors build the tree over a duplicate-free index set. -/
theorem isBuilt_nodup (nb : Point_set_neighborhood) (hb : IsBuilt nb) :
    nb.indexSet.Nodup := by
  rcases hb with ⟨pm, n, rfl⟩ | ⟨pm, n, s, rfl⟩
  · exact List.nodup_range n
  · exact voxelize_nodup pm s (List.range n)

/-! ### Facts about the modelled k-NN search -/

theorem nnLe_iff (pm : Nat → Point3) (q : Point3) (i j : Nat) :
    nnLe pm q i j = true ↔
      (squared_distance (pm i) q < squared_distance (pm j) q
        ∨ (squared_distance (pm i) q = squared_distance (pm j) q ∧ i ≤ j)) := by
  simp [nnLe]

theorem nnLe_trans (pm : Nat → Point3) (q : Point3) :
    ∀ (a b c : Nat), nnLe pm q a b → nnLe pm q b c → nnLe pm q a c := by
  intro a b c hab hbc
  rw [nnLe_iff] at hab hbc ⊢
  rcases hab with h | ⟨e, h⟩ <;> rcases hbc with h2 | ⟨e2, h2⟩
  · exact Or.inl (h.trans h2)
  · exact Or.inl (lt_of_lt_of_eq h e2)
  · exact Or.inl (lt_of_eq_of_lt e h2)
  · exact Or.inr ⟨e.trans e2, h.trans h2⟩

theorem nnLe_total (pm : Nat → Point3) (q : Point3) :
    ∀ (a b : Nat), nnLe pm q a b || nnLe pm q b a := by
  intro a b
  rw [Bool.or_eq_true, nnLe_iff, nnLe_iff]
  rcases lt_trichotomy (squared_distance (pm a) q) (squared_distance (pm b) q) with h | h | h
  · exact Or.inl (Or.inl h)
  · rcases Nat.le_total a b with h2 | h2
    · exact Or.inl (Or.inr ⟨h, h2⟩)
    · exact Or.inr (Or.inr ⟨h.symm, h2⟩)
  · exact Or.inr (Or.inl h)

theorem knnSearch_sorted (pm : Nat → Point3) (I : List Nat) (q : Point3) (k : Nat) :
    (knnSearch pm I q k).Pairwise (fun i j => nnLe pm q i j = true) :=
  List.Pairwise.sublist (List.take_sublist k _)
    (List.sorted_mergeSort (nnLe_trans pm q) (nnLe_total pm q) I)

/-- Every emitted index compares `nnLe` with every index of `I` that was not
emitted: the emitted indices are a sorted head of the sorted index set. -/
theorem knn_le_of_not_mem (pm : Nat → Point3) (I : List Nat) (q : Point3) (k : Nat)
    {i j : Nat} (hi : i ∈ knnSearch pm I q k) (hjI : j ∈ I)
    (hj : j ∉ knnSearch pm I q k) :
    nnLe pm q i j = true := by
  have hsorted := List.sorted_mergeSort (nnLe_trans pm q) (nnLe_total pm q) I
  have hsplit := List.take_append_drop k (I.mergeSort (nnLe pm q))
  have hjm : j ∈ I.mergeSort (nnLe pm q) := List.mem_mergeSort.mpr hjI
  rw [← hsplit] at hsorted hjm
  rcases List.mem_append.mp hjm with h | h
  · exact absurd h hj
  · exact (List.pairwise_append.mp hsorted).2.2 i hi j h

theorem knnSearch_length (pm : Nat → Point3) (I : List Nat) (q : Point3) (k : Nat) :
    (knnSearch pm I q k).length = min k I.length := by
  rw [knnSearch, List.length_take, List.length_mergeSort]

theorem knnSearch_all (pm : Nat → Point3) (I : List Nat) (q : Point3) (k : Nat)
    (h : I.length ≤ k) : ∀ i, i ∈ knnSearch pm I q k ↔ i ∈ I := by
  intro i
  rw [knnSearch, List.take_of_length_le (by rwa [List.length_mergeSort])]
  exact List.mem_mergeSort

theorem knnSearch_nodup (pm : Nat → Point3) (I : List Nat) (q : Point3) (k : Nat)
    (h : I.Nodup) : (knnSearch pm I q k).Nodup :=
  List.Nodup.sublist (List.take_sublist k _)
    ((List.mergeSort_perm I (nnLe pm q)).symm.nodup h)

/-! ### The claims -/

/-- On an index set already sorted by `nnLe`, the modelled k-NN search is a
plain head-of-list: this evaluates the search on concrete inputs (the kernel
cannot reduce the well-founded recursion of `mergeSort` directly). -/
theorem knnSearch_of_sorted (pm : Nat → Point3) (I : List Nat) (q : Point3)
    (k : Nat) (h : I.Pairwise (fun i j => nnLe pm q i j = true)) :
    knnSearch pm I q k = I.take k := by
  rw [knnSearch, List.mergeSort_of_sorted h]

/-- The modelled comparison holds between indices of coincident points in
ascending index order. -/
theorem nnLe_of_le (pm : Nat → Point3) (q : Point3) {i j : Nat} (hle : i ≤ j)
    (he : pm i = pm j) : nnLe pm q i j = true := by
  rw [nnLe_iff, he]
  exact Or.inr ⟨rfl, hle⟩

/-- Evaluation of the k-NN query on the two-point example used by witnesses. -/
theorem knn_eval_pair :
    (Point_set_neighborhood.build (fun _ => ⟨0, 0, 0⟩) 2).k_neighbors ⟨0, 0, 0⟩ 1 = [0] := by
  show knnSearch _ (List.range 2) _ (1 % 4294967296) = [0]
  rw [knnSearch_of_sorted]
  · decide
  · refine List.Pairwise.imp ?_ (List.pairwise_le_range 2)
    intro a b hab
    exact nnLe_of_le _ _ hab rfl

/-- C1: for every built neighborhood, query point `q` and `1 ≤ k ≤ |I|`, every
index emitted by the `K_neighbor_query` is at most as far from `q` (in Euclidean,
equivalently squared, distance) as every index of `I` that was not emitted. -/
theorem C1_knn_correctness (nb : Point_set_neighborhood) (q : Point3) (k i j : Nat)
    (hb : IsBuilt nb) (hk1 : 1 ≤ k) (hk2 : k ≤ nb.indexSet.length)
    (hi : i ∈ (nb.k_neighbor_query k).apply q)
    (hjI : j ∈ nb.indexSet) (hjR : j ∉ (nb.k_neighbor_query k).apply q) :
    squared_distance (nb.pm i) q ≤ squared_distance (nb.pm j) q := by
  have h := knn_le_of_not_mem nb.pm nb.indexSet q (k % 4294967296) hi hjI hjR
  rw [nnLe_iff] at h
  rcases h with h | ⟨he, _⟩
  · exact le_of_lt h
  · exact le_of_eq he

/-- C1 witness: two coincident points, `k = 1`; index `0` is emitted, index `1`
is not, and the distance comparison holds. -/
theorem C1_knn_correctness_witness :
    IsBuilt (Point_set_neighborhood.build (fun _ => ⟨0, 0, 0⟩) 2) ∧
    1 ≤ 1 ∧
    1 ≤ (Point_set_neighborhood.build (fun _ => ⟨0, 0, 0⟩) 2).indexSet.length ∧
    0 ∈ ((Point_set_neighborhood.build (fun _ => ⟨0, 0, 0⟩) 2).k_neighbor_query 1).apply ⟨0, 0, 0⟩ ∧
    1 ∈ (Point_set_neighborhood.build (fun _ => ⟨0, 0, 0⟩) 2).indexSet ∧
    1 ∉ ((Point_set_neighborhood.build (fun _ => ⟨0, 0, 0⟩) 2).k_neighbor_query 1).apply ⟨0, 0, 0⟩ ∧
    squared_distance ((Point_set_neighborhood.build (fun _ => ⟨0, 0, 0⟩) 2).pm 0) ⟨0, 0, 0⟩
      ≤ squared_distance ((Point_set_neighborhood.build (fun _ => ⟨0, 0, 0⟩) 2).pm 1) ⟨0, 0, 0⟩ := by
  have hev : ((Point_set_neighborhood.build (fun _ => (⟨0, 0, 0⟩ : Point3)) 2).k_neighbor_query 1).apply
      ⟨0, 0, 0⟩ = [0] := knn_eval_pair
  refine ⟨Or.inl ⟨_, _, rfl⟩, le_refl 1, by decide, ?_, by decide, ?_, ?_⟩
  · rw [hev]; decide
  · rw [hev]; decide
  · exact C1_knn_correctness (Point_set_neighborhood.build (fun _ => ⟨0, 0, 0⟩) 2) ⟨0, 0, 0⟩ 1 0 1
      (Or.inl ⟨_, _, rfl⟩) (le_refl 1) (by decide) (by rw [hev]; decide) (by decide)
      (by rw [hev]; decide)

/-- C2: for every built neighborhood, query point `q` and radius `r ≥ 0`, the
`Range_neighbor_query` emits exactly the indices of `I` within distance `r` of
`q` (squared distance at most `r * r`). -/
theorem C2_range_completeness (nb : Point_set_neighborhood) (q : Point3) (r : ℚ)
    (hb : IsBuilt nb) (hr : 0 ≤ r) (i : Nat) :
    i ∈ (nb.range_neighbor_query r).apply q ↔
      i ∈ nb.indexSet ∧ squared_distance (nb.pm i) q ≤ r * r := by
  show i ∈ rangeSearch nb.pm nb.indexSet q r ↔ _
  rw [rangeSearch, List.mem_filter]
  simp

/-- C2 witness: one point at the origin, radius `1`; index `0` is emitted and
satisfies the membership characterization. -/
theorem C2_range_completeness_witness :
    IsBuilt (Point_set_neighborhood.build (fun _ => ⟨0, 0, 0⟩) 1) ∧
    (0 : ℚ) ≤ 1 ∧
    (0 ∈ ((Point_set_neighborhood.build (fun _ => ⟨0, 0, 0⟩) 1).range_neighbor_query 1).apply ⟨0, 0, 0⟩ ↔
      0 ∈ (Point_set_neighborhood.build (fun _ => ⟨0, 0, 0⟩) 1).indexSet ∧
      squared_distance ((Point_set_neighborhood.build (fun _ => ⟨0, 0, 0⟩) 1).pm 0) ⟨0, 0, 0⟩ ≤ 1 * 1) :=
  ⟨Or.inl ⟨_, _, rfl⟩, by decide,
    C2_range_completeness (Point_set_neighborhood.build (fun _ => ⟨0, 0, 0⟩) 1) ⟨0, 0, 0⟩ 1
      (Or.inl ⟨_, _, rfl⟩) (by decide) 0⟩

/-- C3: for every built neighborhood, query point `q` and `k ≥ 1`, the emitted
k-NN sequence is in non-decreasing order of distance to `q`, and two emitted
indices with equidistant points appear in ascending index order. -/
theorem C3_knn_ordering (nb : Point_set_neighborhood) (q : Point3) (k : Nat)
    (hb : IsBuilt nb) (hk : 1 ≤ k) :
    (nb.k_neighbors q k).Pairwise (fun i j =>
      squared_distance (nb.pm i) q ≤ squared_distance (nb.pm j) q
      ∧ (squared_distance (nb.pm i) q = squared_distance (nb.pm j) q → i < j)) := by
  have hsorted := knnSearch_sorted nb.pm nb.indexSet q (k % 4294967296)
  have hnd : (knnSearch nb.pm nb.indexSet q (k % 4294967296)).Nodup :=
    knnSearch_nodup nb.pm nb.indexSet q (k % 4294967296) (isBuilt_nodup nb hb)
  have hcomb := List.Pairwise.and hsorted hnd
  refine List.Pairwise.imp ?_ hcomb
  intro a b hab
  obtain ⟨hle, hne⟩ := hab
  rw [nnLe_iff] at hle
  rcases hle with h | ⟨he, hab2⟩
  · exact ⟨le_of_lt h, fun he2 => absurd he2 (ne_of_lt h)⟩
  · exact ⟨le_of_eq he, fun _ => lt_of_le_of_ne hab2 hne⟩

/-- C3 witness: two coincident points, `k = 2`; the emitted sequence is
pairwise ordered. -/
theorem C3_knn_ordering_witness :
    IsBuilt (Point_set_neighborhood.build (fun _ => ⟨0, 0, 0⟩) 2) ∧ 1 ≤ 2 ∧
    ((Point_set_neighborhood.build (fun _ => ⟨0, 0, 0⟩) 2).k_neighbors ⟨0, 0, 0⟩ 2).Pairwise
      (fun i j =>
        squared_distance ((Point_set_neighborhood.build (fun _ => ⟨0, 0, 0⟩) 2).pm i) ⟨0, 0, 0⟩
          ≤ squared_distance ((Point_set_neighborhood.build (fun _ => ⟨0, 0, 0⟩) 2).pm j) ⟨0, 0, 0⟩
        ∧ (squared_distance ((Point_set_neighborhood.build (fun _ => ⟨0, 0, 0⟩) 2).pm i) ⟨0, 0, 0⟩
            = squared_distance ((Point_set_neighborhood.build (fun _ => ⟨0, 0, 0⟩) 2).pm j) ⟨0, 0, 0⟩
            → i < j)) :=
  ⟨Or.inl ⟨_, _, rfl⟩, by decide,
    C3_knn_ordering (Point_set_neighborhood.build (fun _ => ⟨0, 0, 0⟩) 2) ⟨0, 0, 0⟩ 2
      (Or.inl ⟨_, _, rfl⟩) (by decide)⟩

/-- C4: during voxel simplification, for every occupied cell's group `G` (as
built by the grouping loop) the emitted representative belongs to `G` and to the
emitted index set, minimizes the squared distance to the centroid of `G`, and
when several indices of `G` attain the minimum it is the smallest, i.e. the one
encountered first in the group's iteration order. -/
theorem C4_voxel_representative (pm : Nat → Point3) (n : Nat) (s : ℚ)
    (kg : Point3 × List Nat) (hkg : kg ∈ buildGrid pm s (List.range n)) :
    chooseRep pm (centroid pm kg.2) kg.2 ∈ kg.2
    ∧ chooseRep pm (centroid pm kg.2) kg.2 ∈ voxelize_point_set pm s (List.range n)
    ∧ (∀ j ∈ kg.2,
        squared_distance (pm (chooseRep pm (centroid pm kg.2) kg.2)) (centroid pm kg.2)
          ≤ squared_distance (pm j) (centroid pm kg.2))
    ∧ (∀ j ∈ kg.2,
        squared_distance (pm j) (centroid pm kg.2)
          = squared_distance (pm (chooseRep pm (centroid pm kg.2) kg.2)) (centroid pm kg.2)
        → chooseRep pm (centroid pm kg.2) kg.2 ≤ j) := by
  have hwf := buildGrid_wf pm s (List.range n) kg hkg
  have hasc := buildGrid_range_asc pm s n kg hkg
  obtain ⟨hmin, htie⟩ := chooseRep_spec pm (centroid pm kg.2) kg.2 hwf.1 hasc
  refine ⟨chooseRep_mem pm _ kg.2 hwf.1, ?_, hmin, htie⟩
  rw [voxelize_point_set]
  exact List.mem_map.mpr ⟨kg, hkg, rfl⟩

/-- C4 witness: a single point in a single cell; its group is in the grid and
its representative is the point itself. -/
theorem C4_voxel_representative_witness :
    (voxel_ref 1 ⟨0, 0, 0⟩, [0]) ∈ buildGrid (fun _ => ⟨0, 0, 0⟩) 1 (List.range 1)
    ∧ chooseRep (fun _ => ⟨0, 0, 0⟩) (centroid (fun _ => ⟨0, 0, 0⟩) [0]) [0] ∈ [0] := by
  have h := C4_voxel_representative (fun _ => ⟨0, 0, 0⟩) 1 1 (voxel_ref 1 ⟨0, 0, 0⟩, [0])
    (List.mem_singleton.mpr rfl)
  exact ⟨List.mem_singleton.mpr rfl, h.1⟩

/-- C5 counterexample: with the non-positive voxel size `-1` the simplified
construction succeeds; it does not fail with `InvalidVoxelSize`, contrary to
the claim. -/
theorem C5_counterexample :
    Point_set_neighborhood.build_simplifiedE (fun _ => ⟨0, 0, 0⟩) 1 (-1)
      ≠ Except.error BuildError.invalidVoxelSize := by
  simp [Point_set_neighborhood.build_simplifiedE]

/-- C5 amended: the simplified construction performs no validation of the voxel
size: for every `s` — not strictly positive or not — it succeeds, and in
particular it never reports `InvalidVoxelSize`. -/
theorem C5_no_voxel_size_validation (pm : Nat → Point3) (n : Nat) (s : ℚ) :
    Point_set_neighborhood.build_simplifiedE pm n s
      = Except.ok (Point_set_neighborhood.build_simplified pm n s)
    ∧ Point_set_neighborhood.build_simplifiedE pm n s
      ≠ Except.error BuildError.invalidVoxelSize :=
  ⟨rfl, by simp [Point_set_neighborhood.build_simplifiedE]⟩

/-- C6 counterexample: with one point and `k = 2^32` the cast `(unsigned int)k`
requests `0` neighbors, so the query emits `0` indices, not
`min(k, |I|) = 1` as the claim states. -/
theorem C6_counterexample :
    ¬ (((Point_set_neighborhood.build (fun _ => ⟨0, 0, 0⟩) 1).k_neighbors
          ⟨0, 0, 0⟩ 4294967296).length
        = min 4294967296
            (Point_set_neighborhood.build (fun _ => ⟨0, 0, 0⟩) 1).indexSet.length) := by
  have hev : (Point_set_neighborhood.build (fun _ => (⟨0, 0, 0⟩ : Point3)) 1).k_neighbors
      ⟨0, 0, 0⟩ 4294967296 = [] := by
    show knnSearch _ (List.range 1) _ (4294967296 % 4294967296) = []
    rw [knnSearch_of_sorted]
    · decide
    · refine List.Pairwise.imp ?_ (List.pairwise_le_range 1)
      intro a b hab
      exact nnLe_of_le _ _ hab rfl
  rw [hev]
  decide

/-- C6 amended: the number of emitted indices is `min(k mod 2^32, |I|)` (the
cast narrows `k`); when `k mod 2^32 ≥ |I|` all of `I` is emitted; no
`UnderfullResult` status exists in the interface — the caller observes only the
emitted indices. -/
theorem C6_underfull_amended (nb : Point_set_neighborhood) (q : Point3) (k : Nat)
    (hb : IsBuilt nb) :
    (nb.k_neighbors q k).length = min (k % 4294967296) nb.indexSet.length
    ∧ (nb.indexSet.length ≤ k % 4294967296 →
        ∀ i, i ∈ nb.k_neighbors q k ↔ i ∈ nb.indexSet) := by
  refine ⟨knnSearch_length nb.pm nb.indexSet q (k % 4294967296), ?_⟩
  intro h i
  exact knnSearch_all nb.pm nb.indexSet q (k % 4294967296) h i

/-- C6 amended witness: one point, `k = 2`. -/
theorem C6_underfull_amended_witness :
    IsBuilt (Point_set_neighborhood.build (fun _ => ⟨0, 0, 0⟩) 1) ∧
    (((Point_set_neighborhood.build (fun _ => ⟨0, 0, 0⟩) 1).k_neighbors ⟨0, 0, 0⟩ 2).length
        = min (2 % 4294967296)
            (Point_set_neighborhood.build (fun _ => ⟨0, 0, 0⟩) 1).indexSet.length
      ∧ ((Point_set_neighborhood.build (fun _ => ⟨0, 0, 0⟩) 1).indexSet.length ≤ 2 % 4294967296 →
          ∀ i, i ∈ (Point_set_neighborhood.build (fun _ => ⟨0, 0, 0⟩) 1).k_neighbors ⟨0, 0, 0⟩ 2
            ↔ i ∈ (Point_set_neighborhood.build (fun _ => ⟨0, 0, 0⟩) 1).indexSet)) :=
  ⟨Or.inl ⟨_, _, rfl⟩,
    C6_underfull_amended (Point_set_neighborhood.build (fun _ => ⟨0, 0, 0⟩) 1) ⟨0, 0, 0⟩ 2
      (Or.inl ⟨_, _, rfl⟩)⟩

/-- C7 counterexample: a coordinate whose voxel key (`2^64`, at voxel size `1`)
exceeds the maximum of a 64-bit signed integer key (`2^63 - 1`), yet the build
succeeds: no `CoordinateOverflow` is reported. -/
theorem C7_counterexample :
    (2 : ℚ)^63 ≤ (voxel_ref 1 ⟨(2 : ℚ)^64, 0, 0⟩).x
    ∧ Point_set_neighborhood.build_simplifiedE (fun _ => ⟨(2 : ℚ)^64, 0, 0⟩) 1 1
      ≠ Except.error BuildError.coordinateOverflow := by
  constructor
  · show (2 : ℚ)^63 ≤ ((⌊((2 : ℚ)^64) / 1⌋ : ℤ) : ℚ)
    rw [div_one]
    rw [show ((2 : ℚ)^64) = (((2^64 : ℤ) : ℚ)) by push_cast; ring]
    rw [Int.floor_intCast]
    push_cast
    norm_num
  · simp [Point_set_neighborhood.build_simplifiedE]

/-- C7 amended: the voxel key is computed in the kernel's exact scalar type,
not a fixed-width integer, with no overflow detection: the build never reports
`CoordinateOverflow`, for overflowing and non-overflowing inputs alike. -/
theorem C7_no_overflow_detection (pm : Nat → Point3) (n : Nat) (s : ℚ) :
    Point_set_neighborhood.build_simplifiedE pm n s
      ≠ Except.error BuildError.coordinateOverflow := by
  simp [Point_set_neighborhood.build_simplifiedE]

/-- C8: after voxel simplification with size `s > 0`, the resulting index set
contains at most one index per voxel cell `(⌊x/s⌋, ⌊y/s⌋, ⌊z/s⌋)`: the cells of
the emitted indices are pairwise distinct. -/
theorem C8_voxel_uniqueness (pm : Nat → Point3) (n : Nat) (s : ℚ) (hs : 0 < s) :
    (Point_set_neighborhood.build_simplified pm n s).indexSet.Pairwise
      (fun i j => voxel_ref s (pm i) ≠ voxel_ref s (pm j)) :=
  voxelize_keys_pairwise pm s (List.range n)

/-- C8 witness: one point, voxel size 1. -/
theorem C8_voxel_uniqueness_witness :
    (0 : ℚ) < 1 ∧
    (Point_set_neighborhood.build_simplified (fun _ => ⟨0, 0, 0⟩) 1 1).indexSet.Pairwise
      (fun i j => voxel_ref 1 ((fun _ => (⟨0, 0, 0⟩ : Point3)) i)
        ≠ voxel_ref 1 ((fun _ => (⟨0, 0, 0⟩ : Point3)) j)) :=
  ⟨by decide, C8_voxel_uniqueness (fun _ => ⟨0, 0, 0⟩) 1 1 (by decide)⟩

/-- C9: a `K_neighbor_query` whose count `k` exceeds the maximum of
`unsigned int` requests only `k mod 2^32` neighbors because of the
`(unsigned int)k` cast: the query coincides with the query at `k mod 2^32`, and
the number of emitted indices is `min(k mod 2^32, |I|)`. -/
theorem C9_cast_narrowing (nb : Point_set_neighborhood) (q : Point3) (k : Nat)
    (hb : IsBuilt nb) (hk : 4294967296 ≤ k) :
    (nb.k_neighbor_query k).apply q = (nb.k_neighbor_query (k % 4294967296)).apply q
    ∧ ((nb.k_neighbor_query k).apply q).length
      = min (k % 4294967296) nb.indexSet.length := by
  constructor
  · have h2 : k % 4294967296 % 4294967296 = k % 4294967296 := by omega
    show knnSearch nb.pm nb.indexSet q (k % 4294967296)
        = knnSearch nb.pm nb.indexSet q (k % 4294967296 % 4294967296)
    rw [h2]
  · exact knnSearch_length nb.pm nb.indexSet q (k % 4294967296)

/-- C9 witness: one point, `k = 2^32`. -/
theorem C9_cast_narrowing_witness :
    IsBuilt (Point_set_neighborhood.build (fun _ => ⟨0, 0, 0⟩) 1) ∧
    4294967296 ≤ 4294967296 ∧
    (((Point_set_neighborhood.build (fun _ => ⟨0, 0, 0⟩) 1).k_neighbor_query
          4294967296).apply ⟨0, 0, 0⟩
        = ((Point_set_neighborhood.build (fun _ => ⟨0, 0, 0⟩) 1).k_neighbor_query
          (4294967296 % 4294967296)).apply ⟨0, 0, 0⟩
      ∧ (((Point_set_neighborhood.build (fun _ => ⟨0, 0, 0⟩) 1).k_neighbor_query
            4294967296).apply ⟨0, 0, 0⟩).length
        = min (4294967296 % 4294967296)
            (Point_set_neighborhood.build (fun _ => ⟨0, 0, 0⟩) 1).indexSet.length) :=
  ⟨Or.inl ⟨_, _, rfl⟩, le_refl _,
    C9_cast_narrowing (Point_set_neighborhood.build (fun _ => ⟨0, 0, 0⟩) 1) ⟨0, 0, 0⟩
      4294967296 (Or.inl ⟨_, _, rfl⟩) (le_refl _)⟩

/-- C10: both public constructors produce a neighborhood whose tree pointer is
non-null (so the assertion guarding `range_neighbors` and `k_neighbors` holds
and queries never dereference a null tree); only the default constructor leaves
the tree null. -/
theorem C10_tree_non_null (pm : Nat → Point3) (n : Nat) (s : ℚ) :
    (Point_set_neighborhood.build pm n).m_tree ≠ none
    ∧ (Point_set_neighborhood.build_simplified pm n s).m_tree ≠ none
    ∧ (Point_set_neighborhood.mk_default pm).m_tree = none := by
  refine ⟨?_, ?_, rfl⟩
  · simp [Point_set_neighborhood.build]
  · simp [Point_set_neighborhood.build_simplified]
